import Mathlib

/-!
Verification of the `ccpath` path-renaming tool.

The development shallowly embeds the Rust sources:
  * `src/convert_path.rs` — `Convention`, `TryFrom<&str> for Convention`,
    `convert_component`, `convert_basename`, `convert_full`,
    convert_full_except_prefix;
  * `src/error.rs` — `PathConvertError`;
  * `src/main.rs` — `convert_single`, `convert_recursive` and the batch loop
    of `main`.

Paths are embedded at the component level (the level at which the Rust code
itself works, via `Path::components`).  The external `convert_case` crate and
the `walkdir` crate are not part of the repository; they are modelled from the
specification's description of them (word tokenization + re-join per target
convention; bottom-up contents-first traversal) and from their documented
behaviour, as noted on the corresponding definitions.
-/

/-- Embeds `enum Convention` from `src/convert_path.rs`. -/
inductive Convention where
  | TitleCase
  | FlatCase
  | UpperFlatCase
  | CamelCase
  | UpperCamelCase
  | SnakeCase
  | UpperSnakeCase
  | KebabCase
  deriving DecidableEq, Repr

/-- Embeds `enum PathConvertError` from `src/error.rs`. -/
inductive PathConvertError where
  | InvalidUtf8Path
  | InvalidPath
  deriving DecidableEq, Repr

/-- Embeds `TryFrom<&str> for Convention` from `src/convert_path.rs`.
The Rust error is the message string `format!("Unsupported naming convention '{}'", s)`;
the model carries the offending token `s` itself as the error payload. -/
def parseConvention (s : String) : Except String Convention :=
  if s = "title" then .ok Convention.TitleCase
  else if s = "flat" then .ok Convention.FlatCase
  else if s = "FLAT" then .ok Convention.UpperFlatCase
  else if s = "camel" then .ok Convention.CamelCase
  else if s = "CAMEL" then .ok Convention.UpperCamelCase
  else if s = "snake" then .ok Convention.SnakeCase
  else if s = "SNAKE" then .ok Convention.UpperSnakeCase
  else if s = "kebab" then .ok Convention.KebabCase
  else .error s

/-- ASCII upper-casing of a single character (used by the modelled case primitive). -/
def toUpperC (c : Char) : Char :=
  if 97 ≤ c.toNat ∧ c.toNat ≤ 122 then Char.ofNat (c.toNat - 32) else c

/-- ASCII lower-casing of a single character (used by the modelled case primitive). -/
def toLowerC (c : Char) : Char :=
  if 65 ≤ c.toNat ∧ c.toNat ≤ 90 then Char.ofNat (c.toNat + 32) else c

/-- A character is a lower-case ASCII letter. -/
def isLowerA (c : Char) : Bool := 97 ≤ c.toNat && c.toNat ≤ 122

/-- A character is an upper-case ASCII letter. -/
def isUpperA (c : Char) : Bool := 65 ≤ c.toNat && c.toNat ≤ 90

/-- Capitalization of one word: first character upper-case, rest lower-case
(the `Capital` word pattern of the case primitive). -/
def capitalizeW (w : List Char) : List Char :=
  match w with
  | [] => []
  | c :: cs => toUpperC c :: cs.map toLowerC

/-- Split a character list before every lower-case-to-upper-case transition
(the `LowerUpper` word boundary of the case primitive). -/
def splitLU (l : List Char) : List (List Char) :=
  match l with
  | [] => [[]]
  | [c] => [[c]]
  | c1 :: c2 :: rest =>
    match splitLU (c2 :: rest) with
    | [] => [[c1]]
    | w :: ws =>
      if isLowerA c1 && isUpperA c2 then [c1] :: w :: ws else (c1 :: w) :: ws

/-- Modelled from the spec: word-boundary detection of the black-box case
primitive (the `convert_case` crate's `from_case`) when the source convention
is known.  Separator conventions split at their separator; camel conventions
split at lower-to-upper transitions; flat conventions have no boundaries. -/
def parseIn (c : Convention) (l : List Char) : List (List Char) :=
  match c with
  | .TitleCase => (l.splitOn ' ').filter (· ≠ [])
  | .SnakeCase => (l.splitOn '_').filter (· ≠ [])
  | .UpperSnakeCase => (l.splitOn '_').filter (· ≠ [])
  | .KebabCase => (l.splitOn '-').filter (· ≠ [])
  | .CamelCase => (splitLU l).filter (· ≠ [])
  | .UpperCamelCase => (splitLU l).filter (· ≠ [])
  | .FlatCase => if l = [] then [] else [l]
  | .UpperFlatCase => if l = [] then [] else [l]

/-- Modelled from the spec: the convention-agnostic heuristic boundary
detection used when no source convention is supplied (separator characters
and letter-case transitions). -/
def parseHeuristic (l : List Char) : List (List Char) :=
  (((l.splitOn ' ').flatMap (·.splitOn '_')).flatMap (·.splitOn '-')).flatMap
    (fun w => (splitLU w).filter (· ≠ []))

/-- Modelled from the spec: rendering a word sequence in a target convention
(the black-box `convertCase(word_sequence, targetConvention)` primitive, the
`convert_case` crate's `to_case`). -/
def render (c : Convention) (ws : List (List Char)) : List Char :=
  match c with
  | .TitleCase => List.intercalate [' '] (ws.map capitalizeW)
  | .FlatCase => (ws.map (List.map toLowerC)).flatten
  | .UpperFlatCase => (ws.map (List.map toUpperC)).flatten
  | .CamelCase =>
    match ws with
    | [] => []
    | w :: rest => w.map toLowerC ++ (rest.map capitalizeW).flatten
  | .UpperCamelCase => (ws.map capitalizeW).flatten
  | .SnakeCase => List.intercalate ['_'] (ws.map (List.map toLowerC))
  | .UpperSnakeCase => List.intercalate ['_'] (ws.map (List.map toUpperC))
  | .KebabCase => List.intercalate ['-'] (ws.map (List.map toLowerC))

/-- Modelled from the spec: the full black-box case conversion on character
lists — tokenize (by source convention if known, else heuristically), then
re-join in the target convention. -/
def convertCaseL (l : List Char) (f? : Option Convention) (t : Convention) : List Char :=
  render t (match f? with
            | some f => parseIn f l
            | none => parseHeuristic l)

/-- Modelled from the spec: black-box case conversion on strings. -/
def convertCaseS (s : String) (f? : Option Convention) (t : Convention) : String :=
  ⟨convertCaseL s.data f? t⟩

/-- A Rust `OsStr`: either valid UTF-8 text or opaque non-UTF-8 bytes
(identified by an index; their content never matters, only that `to_str`
fails on them). -/
inductive OsStrM where
  | utf8 (s : String)
  | nonUtf8 (id : Nat)
  deriving DecidableEq, Repr

/-- Index of the last occurrence of a dot in a character list. -/
def lastDotIdx (l : List Char) : Option Nat :=
  match l with
  | [] => none
  | c :: cs =>
    match lastDotIdx cs with
    | some i => some (i + 1)
    | none => if c = '.' then some 0 else none

/-- Embeds Rust's `Path::file_stem` / `Path::extension` pair on a single
normal path component: the empty string, `.` and `..` have neither stem nor
extension; a name whose only dot is the leading character is all stem
(e.g. `.gitignore`); otherwise the stem is the text before the last dot and
the extension the text after it. -/
def fileStemExt (s : String) : Option String × Option String :=
  if s = "" ∨ s = "." ∨ s = ".." then (none, none)
  else
    match lastDotIdx s.data with
    | none => (some s, none)
    | some 0 => (some s, none)
    | some i => (some ⟨s.data.take i⟩, some ⟨s.data.drop (i + 1)⟩)

/-- Embeds `convert_component` from `src/convert_path.rs`: reject non-UTF-8
components, reject components with neither stem nor extension, return an
extension-only component verbatim, and otherwise case-convert the stem and
re-attach the (unconverted) extension. -/
def convert_component (c : OsStrM) (f? : Option Convention) (t : Convention) :
    Except PathConvertError String :=
  match c with
  | .nonUtf8 _ => .error .InvalidUtf8Path
  | .utf8 s =>
    match fileStemExt s with
    | (none, none) => .error .InvalidPath
    | (none, some e) => .ok e
    | (some st, ext) =>
      let new_stem := convertCaseS st f? t
      match ext with
      | some e => .ok (new_stem ++ "." ++ e)
      | none => .ok new_stem

/-- One component of a parsed path, after Rust's `Path::components`
normalization (Windows drive prefixes are out of scope). -/
inductive Component where
  | rootDir
  | curDir
  | parentDir
  | normal (n : OsStrM)
  deriving DecidableEq, Repr

/-- A path, as its normalized component sequence. -/
abbrev PathT := List Component

/-- Embeds Rust's `Path::file_name`: the last component if it is a normal
component, `none` otherwise (root, `.`-only, paths ending in `..`, empty). -/
def fileNameM (p : PathT) : Option OsStrM :=
  match p.getLast? with
  | some (.normal n) => some n
  | _ => none

/-- Embeds Rust's `Path::parent`: `none` for the empty path and for the root,
otherwise the path without its final component. -/
def parentM (p : PathT) : Option PathT :=
  if p = [] ∨ p = [Component.rootDir] then none else some p.dropLast

/-- Embeds `convert_basename` from `src/convert_path.rs`: if the path has no
parent or no file name, return it unchanged; otherwise convert the final
component and re-attach it to the unchanged parent (`pop` + `push`). -/
def convert_basename (p : PathT) (f? : Option Convention) (t : Convention) :
    Except PathConvertError PathT :=
  match parentM p, fileNameM p with
  | some _, some base =>
    match convert_component base f? t with
    | .ok c => .ok (p.dropLast ++ [Component.normal (.utf8 c)])
    | .error e => .error e
  | _, _ => .ok p

/-- Embeds `convert_full` from `src/convert_path.rs`: convert every normal
component independently, pass structural components through unchanged, and
propagate the first conversion failure. -/
def convert_full (p : PathT) (f? : Option Convention) (t : Convention) :
    Except PathConvertError PathT :=
  match p with
  | [] => .ok []
  | Component.normal n :: rest =>
    match convert_component n f? t with
    | .error e => .error e
    | .ok c =>
      match convert_full rest f? t with
      | .error e => .error e
      | .ok r => .ok (Component.normal (.utf8 c) :: r)
  | c :: rest =>
    match convert_full rest f? t with
    | .error e => .error e
    | .ok r => .ok (c :: r)

/-- Embeds convert_full_except_prefix from `src/convert_path.rs`: if the
path starts with the given prefix component-wise, strip it, convert the
remainder with `convert_full` and re-prepend the untouched prefix; otherwise
behave exactly as `convert_full` (errors of the inner conversion propagate). -/
def convert_full_except_prefix (p pre : PathT) (f? : Option Convention) (t : Convention) :
    Except PathConvertError PathT :=
  if pre.isPrefixOf p then
    match convert_full (p.drop pre.length) f? t with
    | .ok nb => .ok (pre ++ nb)
    | .error e => .error e
  else
    convert_full p f? t

/-- The filesystem, as the list of existing paths with a directory flag. -/
abbrev FS := List (PathT × Bool)

/-- A path exists in the filesystem. -/
def existsP (fs : FS) (p : PathT) : Bool :=
  fs.any (fun e => e.1 == p)

/-- A path exists and is a directory. -/
def isDirFS (fs : FS) (p : PathT) : Bool :=
  fs.any (fun e => e.1 == p && e.2)

/-- Effect of `fs::rename(src, dst)` on the model filesystem: every path at
or below `src` moves below `dst` (a pre-existing `dst` entry is shadowed,
matching last-writer-wins clobbering for existence queries). -/
def renameFS (src dst : PathT) (fs : FS) : FS :=
  fs.map (fun e => if src.isPrefixOf e.1 then (dst ++ e.1.drop src.length, e.2) else e)

/-- Effect of `fs::create_dir_all(p)` on the model filesystem: `p` and all of
its ancestors exist as directories afterwards. -/
def mkdirAll (p : PathT) (fs : FS) : FS :=
  fs ++ (List.range p.length).map (fun i => (p.take (i + 1), true))

/-- Oracle deciding which raw filesystem calls fail (permissions, cross-device
renames, ...); the model is quantified over it. -/
structure IOOracle where
  mkdirFails : PathT → Bool
  renameFails : PathT → PathT → Bool

/-- Outcome of processing one path in `main.rs`: normal return `Ok(())` with
the resulting filesystem, the propagated `PathConvertError`, or a process
`exit(code)` (which `main.rs` performs when `create_dir_all` fails). -/
inductive ProcResult where
  | ok (fs : FS)
  | errR (e : PathConvertError) (fs : FS)
  | exited (code : Nat) (fs : FS)
  deriving DecidableEq, Repr

/-- The filesystem component of a processing outcome. -/
def ProcResult.fsOf : ProcResult → FS
  | .ok fs => fs
  | .errR _ fs => fs
  | .exited _ fs => fs

/-- Destination computation of `convert_single` in `src/main.rs`: full-path
conversion (with or without the prefix option) or basename conversion. -/
def computeDest (p : PathT) (f? : Option Convention) (t : Convention)
    (is_full_path : Bool) (pre : Option PathT) : Except PathConvertError PathT :=
  if is_full_path then
    match pre with
    | some pr => convert_full_except_prefix p pr f? t
    | none => convert_full p f? t
  else
    convert_basename p f? t

/-- The final `fs::rename` call of `convert_single`: on failure the error is
printed and the function still returns `Ok(())` with the filesystem
unchanged; on success the filesystem is updated. -/
def finishRename (io : IOOracle) (fs : FS) (src dst : PathT) : ProcResult :=
  if io.renameFails src dst then .ok fs else .ok (renameFS src dst fs)

/-- Embeds `convert_single` from `src/main.rs` (console printing elided):
compute the destination (propagating conversion errors); under dry-run do
nothing; skip existing destinations under no-clobber; create the missing
parent directory — where a `create_dir_all` failure calls `exit(4)` —
and perform the rename. -/
def convert_single (io : IOOracle) (fs : FS) (path : PathT)
    (f? : Option Convention) (t : Convention) (is_full_path : Bool)
    (pre : Option PathT) (is_dry_run no_clobber : Bool) : ProcResult :=
  match computeDest path f? t is_full_path pre with
  | .error e => .errR e fs
  | .ok new_path =>
    if is_dry_run then .ok fs
    else if existsP fs new_path && no_clobber then .ok fs
    else
      match parentM new_path with
      | some pp =>
        if !existsP fs pp then
          if io.mkdirFails pp then .exited 4 fs
          else finishRename io (mkdirAll pp fs) path new_path
        else finishRename io fs path new_path
      | none => finishRename io fs path new_path

mutual

/-- A directory tree on disk (symbolic links appear as opaque `file` leaves). -/
inductive FsTree where
  | file (name : OsStrM) : FsTree
  | dir (name : OsStrM) (children : Forest) : FsTree

/-- A list of sibling subtrees. -/
inductive Forest where
  | nil : Forest
  | cons (hd : FsTree) (tl : Forest) : Forest

end

/-- Name of the root entry of a subtree. -/
def FsTree.name : FsTree → OsStrM
  | .file n => n
  | .dir n _ => n

/-- The names of the root entries of a forest. -/
def namesF : Forest → List OsStrM
  | .nil => []
  | .cons t rest => t.name :: namesF rest

/-- No duplicates, as a Boolean. -/
def nodupB : List OsStrM → Bool
  | [] => true
  | a :: l => !(l.contains a) && nodupB l

mutual

/-- Well-formed tree: sibling names are distinct at every level (as on a real
filesystem, where a directory cannot hold two entries of the same name). -/
def wfT : FsTree → Bool
  | .file _ => true
  | .dir _ cs => nodupB (namesF cs) && wfF cs

/-- Well-formed forest: every subtree is well-formed. -/
def wfF : Forest → Bool
  | .nil => true
  | .cons t rest => wfT t && wfF rest

end

mutual

/-- Modelled from the spec: the entry sequence produced by the `walkdir`
crate's `WalkDir::new(p).contents_first(true)` for the subtree `t` rooted at
path `p` — a depth-first, post-order (contents-first) enumeration in which
every entry of a directory precedes the directory itself and the root `p`
is included (last). -/
def walkBU (p : PathT) : FsTree → List PathT
  | .file _ => [p]
  | .dir _ cs => walkForest p cs ++ [p]

/-- Modelled from the spec: contents-first enumeration of a forest of
subtrees whose parent directory is at path `p`. -/
def walkForest (p : PathT) : Forest → List PathT
  | .nil => []
  | .cons t rest => walkBU (p ++ [Component.normal t.name]) t ++ walkForest p rest

end

/-- Embeds `convert_recursive` from `src/main.rs`: process the discovered
entries in order with basename-only conversion and no prefix, propagating the
first conversion error (the `?` operator) and any process exit; entries whose
directory read failed are already absent from the list (`if let Ok(entry)`). -/
def convert_recursive (io : IOOracle) (fs : FS) (entries : List PathT)
    (f? : Option Convention) (t : Convention) (is_dry_run no_clobber : Bool) : ProcResult :=
  match entries with
  | [] => .ok fs
  | e :: rest =>
    match convert_single io fs e f? t false none is_dry_run no_clobber with
    | .ok fs' => convert_recursive io fs' rest f? t is_dry_run no_clobber
    | .errR ε fs' => .errR ε fs'
    | .exited c fs' => .exited c fs'

/-- Outcome of the whole invocation: normal completion or a process exit. -/
inductive BatchResult where
  | done (fs : FS)
  | exitedB (code : Nat) (fs : FS)
  deriving DecidableEq, Repr

/-- Embeds the path loop of `main` in `src/main.rs`: directories are walked
recursively when `--recursive` is set, other paths are processed singly; the
`Result` of each call is discarded (processing continues with the next user
path), but a process exit ends everything.  `getTree` reports the on-disk
subtree of a directory path at the moment it is walked. -/
def run_paths (io : IOOracle) (fs : FS) (paths : List PathT)
    (getTree : PathT → FsTree) (f? : Option Convention) (t : Convention)
    (is_full_path : Bool) (pre : Option PathT)
    (is_recursive is_dry_run no_clobber : Bool) : BatchResult :=
  match paths with
  | [] => .done fs
  | p :: rest =>
    match (if is_recursive && isDirFS fs p then
             convert_recursive io fs (walkBU p (getTree p)) f? t is_dry_run no_clobber
           else
             convert_single io fs p f? t is_full_path pre is_dry_run no_clobber) with
    | .ok fs' => run_paths io fs' rest getTree f? t is_full_path pre is_recursive is_dry_run no_clobber
    | .errR _ fs' => run_paths io fs' rest getTree f? t is_full_path pre is_recursive is_dry_run no_clobber
    | .exited c fs' => .exitedB c fs'

/-- A word fit for case conversion: non-empty, all lower-case ASCII letters. -/
def validWordB (w : List Char) : Bool := !w.isEmpty && w.all isLowerA

/-- A non-empty sequence of valid words. -/
def validWordsB (ws : List (List Char)) : Bool := !ws.isEmpty && ws.all validWordB

/-- An oracle under which every raw filesystem call succeeds. -/
def ioOk : IOOracle := ⟨fun _ => false, fun _ _ => false⟩

/-- An oracle under which every `create_dir_all` call fails. -/
def ioMkdirFail : IOOracle := ⟨fun _ => true, fun _ _ => false⟩

/-- An oracle under which every `fs::rename` call fails. -/
def ioRenameFail : IOOracle := ⟨fun _ => false, fun _ _ => true⟩

/-- A placeholder directory-tree oracle (never consulted in non-recursive runs). -/
def treeLeaf : PathT → FsTree := fun _ => FsTree.file (.utf8 "x")

/-- A small concrete directory tree: `A/` containing `b.txt` and `C/d.txt`. -/
def demoTree : FsTree :=
  FsTree.dir (.utf8 "A")
    (Forest.cons (FsTree.file (.utf8 "b.txt"))
      (Forest.cons
        (FsTree.dir (.utf8 "C") (Forest.cons (FsTree.file (.utf8 "d.txt")) Forest.nil))
        Forest.nil))

/-- C9: parsing a convention token succeeds exactly for the eight canonical
case-sensitive tokens, each mapping to its distinct `Convention` variant;
every other input fails with an unsupported-convention error carrying the
offending token.  (The function is pure; there are no side effects.) -/
theorem claim_C9 :
    parseConvention "title" = .ok Convention.TitleCase ∧
    parseConvention "flat" = .ok Convention.FlatCase ∧
    parseConvention "FLAT" = .ok Convention.UpperFlatCase ∧
    parseConvention "camel" = .ok Convention.CamelCase ∧
    parseConvention "CAMEL" = .ok Convention.UpperCamelCase ∧
    parseConvention "snake" = .ok Convention.SnakeCase ∧
    parseConvention "SNAKE" = .ok Convention.UpperSnakeCase ∧
    parseConvention "kebab" = .ok Convention.KebabCase ∧
    ∀ s : String,
      s ∉ ["title", "flat", "FLAT", "camel", "CAMEL", "snake", "SNAKE", "kebab"] →
      parseConvention s = .error s := by
  refine ⟨rfl, rfl, rfl, rfl, rfl, rfl, rfl, rfl, ?_⟩
  intro s h
  simp only [List.mem_cons, List.not_mem_nil, or_false, not_or] at h
  obtain ⟨h1, h2, h3, h4, h5, h6, h7, h8⟩ := h
  simp [parseConvention, h1, h2, h3, h4, h5, h6, h7, h8]

/-- Witness for C9 at the concrete unknown token `"foo"`. -/
theorem claim_C9_witness : parseConvention "foo" = .error "foo" :=
  claim_C9.2.2.2.2.2.2.2.2 "foo" (by decide)

/-- C10: on every valid-UTF-8 component, an extension implies a stem (so the
extension-only branch of `convert_component` is unreachable), and
`convert_component` fails with `InvalidPath` exactly when the component has
neither stem nor extension — as the empty component does. -/
theorem claim_C10 (s : String) (f? : Option Convention) (t : Convention) :
    ((fileStemExt s).2.isSome = true → (fileStemExt s).1.isSome = true) ∧
    (convert_component (.utf8 s) f? t = .error PathConvertError.InvalidPath ↔
      fileStemExt s = (none, none)) ∧
    fileStemExt "" = (none, none) := by
  refine ⟨?_, ?_, by decide⟩
  · unfold fileStemExt
    split
    · simp
    · split <;> simp
  · rcases hfe : fileStemExt s with ⟨a, b⟩
    rcases a with _ | st <;> rcases b with _ | e <;>
      simp [convert_component, hfe]

/-- Witness for C10: a component with an extension (`"name.txt"`) has a stem,
and the empty component fails with `InvalidPath`. -/
theorem claim_C10_witness :
    (fileStemExt "name.txt").1.isSome = true ∧
    convert_component (.utf8 "") none Convention.SnakeCase =
      .error PathConvertError.InvalidPath :=
  ⟨(claim_C10 "name.txt" none Convention.SnakeCase).1 (by decide),
   (claim_C10 "" none Convention.SnakeCase).2.1.mpr (by decide)⟩

theorem lastDotIdx_eq_none {l : List Char} (h : '.' ∉ l) : lastDotIdx l = none := by
  induction l with
  | nil => rfl
  | cons c cs ih =>
    simp only [List.mem_cons, not_or] at h
    have hc : ¬c = '.' := fun hc => h.1 hc.symm
    simp [lastDotIdx, ih h.2, hc]

/-- C3 counterexample: the component `.gitignore` is not preserved verbatim —
for source snake and target FLAT (upper-flat) it is case-converted to
`.GITIGNORE`. -/
theorem claim_C3_counterexample :
    convert_component (.utf8 ".gitignore") (some Convention.SnakeCase)
        Convention.UpperFlatCase = .ok ".GITIGNORE" ∧
    (".GITIGNORE" : String) ≠ ".gitignore" := by
  constructor
  · rfl
  · decide

/-- C3 (amended): a component whose only dot is its leading character (such
as `.gitignore`) is parsed as all stem with no extension, and is therefore
case-converted like any other stem rather than preserved verbatim; the
extension-only verbatim branch is not what handles it. -/
theorem claim_C3_amended (s : String) (rest : List Char)
    (f? : Option Convention) (t : Convention)
    (hdata : s.data = '.' :: rest) (hne : rest ≠ []) (hdot : '.' ∉ rest) :
    fileStemExt s = (some s, none) ∧
    convert_component (.utf8 s) f? t = .ok (convertCaseS s f? t) := by
  have hfe : fileStemExt s = (some s, none) := by
    unfold fileStemExt
    rw [if_neg]
    · rw [hdata]
      simp [lastDotIdx, lastDotIdx_eq_none hdot]
    · rintro (h | h | h) <;>
        (rw [String.ext_iff, hdata] at h; simp at h) <;> simp_all
  refine ⟨hfe, ?_⟩
  simp [convert_component, hfe]

/-- Witness for C3 (amended) at `.gitignore` with heuristic source and camel
target. -/
theorem claim_C3_witness :
    fileStemExt ".gitignore" = (some ".gitignore", none) ∧
    convert_component (.utf8 ".gitignore") none Convention.CamelCase =
      .ok (convertCaseS ".gitignore" none Convention.CamelCase) :=
  claim_C3_amended ".gitignore" "gitignore".data none Convention.CamelCase
    (by decide) (by decide) (by decide)

/-- C4: convert_full_except_prefix (p, pre, req) equals `pre` joined with
`convert_full (strip p pre) req` whenever `p` starts with `pre`
component-wise, and equals `convert_full p req` otherwise; in both cases a
failing inner conversion propagates as the same error (the `Except.map`
formulation). -/
theorem claim_C4 (p pre : PathT) (f? : Option Convention) (t : Convention) :
    (pre <+: p →
      convert_full_except_prefix p pre f? t =
        (convert_full (p.drop pre.length) f? t).map (fun nb => pre ++ nb)) ∧
    (¬ pre <+: p →
      convert_full_except_prefix p pre f? t = convert_full p f? t) := by
  constructor <;> intro h
  · rw [ convert_full_except_prefix, if_pos (List.isPrefixOf_iff_prefix.mpr h)]
    cases hc : convert_full (p.drop pre.length) f? t <;> simp [hc, Except.map]
  · rw [ convert_full_except_prefix,
      if_neg (fun hb => h (List.isPrefixOf_iff_prefix.mp hb))]

/-- Witness for C4: one run in which the prefix matches and one in which it
does not. -/
theorem claim_C4_witness :
    convert_full_except_prefix
        [Component.rootDir, Component.normal (.utf8 "some-path"),
         Component.normal (.utf8 "and-a")]
        [Component.rootDir, Component.normal (.utf8 "some-path")]
        none Convention.UpperSnakeCase =
      (convert_full
          ([Component.rootDir, Component.normal (.utf8 "some-path"),
            Component.normal (.utf8 "and-a")].drop
            ([Component.rootDir, Component.normal (.utf8 "some-path")] : PathT).length)
          none Convention.UpperSnakeCase).map
        (fun nb => [Component.rootDir, Component.normal (.utf8 "some-path")] ++ nb) ∧
    convert_full_except_prefix [Component.normal (.utf8 "and-a")]
        [Component.normal (.utf8 "other")] none Convention.UpperSnakeCase =
      convert_full [Component.normal (.utf8 "and-a")] none Convention.UpperSnakeCase :=
  ⟨(claim_C4 _ _ none Convention.UpperSnakeCase).1 ⟨[Component.normal (.utf8 "and-a")], rfl⟩,
   (claim_C4 _ _ none Convention.UpperSnakeCase).2 (by decide)⟩

/-- C5: `convert_basename` never modifies any segment except the final one —
for a path `init ++ [normal s]` the output keeps `init` verbatim (errors of
the component conversion propagate) — and a path with no parent component
(the empty path or the root) or no file name (a `..`-only reference, or any
path ending in `..`) is returned unchanged as a success. -/
theorem claim_C5 (p : PathT) (init : List Component) (s : OsStrM)
    (f? : Option Convention) (t : Convention) :
    (convert_basename (init ++ [Component.normal s]) f? t =
      (convert_component s f? t).map (fun c => init ++ [Component.normal (.utf8 c)])) ∧
    (parentM p = none → convert_basename p f? t = .ok p) ∧
    (fileNameM p = none → convert_basename p f? t = .ok p) := by
  refine ⟨?_, ?_, ?_⟩
  · have hpar : parentM (init ++ [Component.normal s]) = some init := by
      unfold parentM
      rw [if_neg, List.dropLast_concat]
      rintro (h | h)
      · simp at h
      · rcases init with _ | ⟨a, l⟩
        · simp at h
        · have hl := congrArg List.length h
          simp at hl
    have hname : fileNameM (init ++ [Component.normal s]) = some s := by
      simp [fileNameM, List.getLast?_concat]
    unfold convert_basename
    rw [hpar, hname]
    cases hc : convert_component s f? t <;>
      simp [hc, Except.map, List.dropLast_concat]
  · intro h
    unfold convert_basename
    rw [h]
  · intro h
    rcases hp : parentM p with _ | q <;> simp [convert_basename, h, hp]

/-- Witness for C5: the root path (no parent), a `..`-only path and a path
ending in `..` (no file name) are each returned unchanged as a success. -/
theorem claim_C5_witness :
    convert_basename [Component.rootDir] none Convention.SnakeCase =
      .ok [Component.rootDir] ∧
    convert_basename [Component.parentDir] none Convention.SnakeCase =
      .ok [Component.parentDir] ∧
    convert_basename [Component.normal (.utf8 "a"), Component.parentDir]
        none Convention.SnakeCase =
      .ok [Component.normal (.utf8 "a"), Component.parentDir] :=
  ⟨(claim_C5 [Component.rootDir] [] (.utf8 "x") none
      Convention.SnakeCase).2.1 (by decide),
   (claim_C5 [Component.parentDir] [] (.utf8 "x") none
      Convention.SnakeCase).2.2 (by decide),
   (claim_C5 [Component.normal (.utf8 "a"), Component.parentDir] [] (.utf8 "x") none
      Convention.SnakeCase).2.2 (by decide)⟩

/-- C7: when the computed destination already exists and no-clobber is set
(and this is not a dry run), `convert_single` skips the rename and returns
success with the filesystem completely unchanged — the source stays at its
original path and the pre-existing destination is untouched. -/
theorem claim_C7 (io : IOOracle) (fs : FS) (path q : PathT)
    (f? : Option Convention) (t : Convention) (full : Bool) (pre : Option PathT)
    (hdest : computeDest path f? t full pre = .ok q)
    (hex : existsP fs q = true) :
    convert_single io fs path f? t full pre false true = .ok fs := by
  unfold convert_single
  rw [hdest]
  simp [hex]

/-- Witness for C7: renaming `Some File.txt` to the already existing
`some_file.txt` under no-clobber leaves the filesystem as it was. -/
theorem claim_C7_witness :
    convert_single ioOk
        [([Component.normal (.utf8 "Some File.txt")], false),
         ([Component.normal (.utf8 "some_file.txt")], false)]
        [Component.normal (.utf8 "Some File.txt")]
        none Convention.SnakeCase false none false true =
      .ok [([Component.normal (.utf8 "Some File.txt")], false),
           ([Component.normal (.utf8 "some_file.txt")], false)] :=
  claim_C7 ioOk _ _ [Component.normal (.utf8 "some_file.txt")]
    none Convention.SnakeCase false none rfl (by decide)

theorem convert_single_dry (io : IOOracle) (fs : FS) (p : PathT)
    (f? : Option Convention) (t : Convention) (full : Bool)
    (pre : Option PathT) (nc : Bool) :
    convert_single io fs p f? t full pre true nc = .ok fs ∨
    ∃ e, convert_single io fs p f? t full pre true nc = .errR e fs := by
  cases h : computeDest p f? t full pre <;> simp [convert_single, h]

/-- C8: under dry-run no filesystem mutation of any kind occurs — both for a
single path (any mode, any other options) and along a whole recursive entry
sequence, the filesystem after processing is exactly the filesystem before. -/
theorem claim_C8 (io : IOOracle) (fs : FS) (p : PathT)
    (f? : Option Convention) (t : Convention) (full : Bool)
    (pre : Option PathT) (nc : Bool) :
    (convert_single io fs p f? t full pre true nc).fsOf = fs ∧
    ∀ entries : List PathT, (convert_recursive io fs entries f? t true nc).fsOf = fs := by
  constructor
  · cases h : computeDest p f? t full pre <;>
      simp [convert_single, h, ProcResult.fsOf]
  · intro entries
    induction entries generalizing fs with
    | nil => simp [convert_recursive, ProcResult.fsOf]
    | cons e rest ih =>
      rcases convert_single_dry io fs e f? t false none nc with h | ⟨ε, h⟩
      · simp only [convert_recursive, h]
        exact ih fs
      · simp only [convert_recursive, h, ProcResult.fsOf]

/-- C2 counterexample: a directory-creation failure is batch-fatal, not
per-path.  With `--full-path` and target snake, the first path's destination
parent `some_dir` does not exist; when `create_dir_all` fails the program
calls `exit(4)`, so the whole invocation aborts and the second user path is
never processed (its destination never comes into existence). -/
theorem claim_C2_counterexample :
    run_paths ioMkdirFail
        [([Component.normal (.utf8 "Some Dir")], true),
         ([Component.normal (.utf8 "Some Dir"), Component.normal (.utf8 "f.txt")], false),
         ([Component.normal (.utf8 "Other File.txt")], false)]
        [[Component.normal (.utf8 "Some Dir"), Component.normal (.utf8 "f.txt")],
         [Component.normal (.utf8 "Other File.txt")]]
        treeLeaf none Convention.SnakeCase true none false false false =
      .exitedB 4
        [([Component.normal (.utf8 "Some Dir")], true),
         ([Component.normal (.utf8 "Some Dir"), Component.normal (.utf8 "f.txt")], false),
         ([Component.normal (.utf8 "Other File.txt")], false)] ∧
    existsP
        [([Component.normal (.utf8 "Some Dir")], true),
         ([Component.normal (.utf8 "Some Dir"), Component.normal (.utf8 "f.txt")], false),
         ([Component.normal (.utf8 "Other File.txt")], false)]
        [Component.normal (.utf8 "other_file.txt")] = false := by
  exact ⟨rfl, rfl⟩

/-- C2 (amended): error propagation as the code implements it.
(1) A conversion-computation error on a user path is non-fatal to the batch:
`main` discards the per-path `Result` and moves to the next path.
(2) A failing `fs::rename` call is non-fatal: the error is only reported and
`convert_single` still returns success with the filesystem unchanged.
(3) A failing `create_dir_all` call is batch-fatal: `convert_single` exits
the process with code 4, which ends the whole invocation.
(4) Inside a recursive traversal a conversion error on one entry aborts the
remaining tree entries (the `?` operator in `convert_recursive`). -/
theorem claim_C2_amended (io : IOOracle) (fs : FS) (p : PathT)
    (rest : List PathT) (getTree : PathT → FsTree) (f? : Option Convention)
    (t : Convention) (full : Bool) (pre : Option PathT) (dry nc : Bool) :
    (∀ e fs2, convert_single io fs p f? t full pre dry nc = .errR e fs2 →
      run_paths io fs (p :: rest) getTree f? t full pre false dry nc =
        run_paths io fs2 rest getTree f? t full pre false dry nc) ∧
    (∀ src dst, io.renameFails src dst = true →
      finishRename io fs src dst = .ok fs) ∧
    (∀ q pp, computeDest p f? t full pre = .ok q →
      (existsP fs q && nc) = false →
      parentM q = some pp →
      existsP fs pp = false →
      io.mkdirFails pp = true →
      convert_single io fs p f? t full pre false nc = .exited 4 fs ∧
      run_paths io fs (p :: rest) getTree f? t full pre false false nc =
        .exitedB 4 fs) ∧
    (∀ e fs2 entries, convert_single io fs p f? t false none dry nc = .errR e fs2 →
      convert_recursive io fs (p :: entries) f? t dry nc = .errR e fs2) := by
  refine ⟨?_, ?_, ?_, ?_⟩
  · intro e fs2 h
    simp [run_paths, h]
  · intro src dst h
    simp [finishRename, h]
  · intro q pp h1 h2 h3 h4 h5
    have hcs : convert_single io fs p f? t full pre false nc = .exited 4 fs := by
      simp [convert_single, h1, h2, h3, h4, h5]
    exact ⟨hcs, by simp [run_paths, hcs]⟩
  · intro e fs2 entries h
    simp [convert_recursive, h]

/-- Witness for C2 (amended): each of the four propagation facts at a
concrete input — a non-UTF-8 path in a batch, a failing rename, a failing
directory creation, and a non-UTF-8 entry during recursion. -/
theorem claim_C2_witness :
    (run_paths ioOk [] [[Component.normal (.nonUtf8 0)]] treeLeaf
        none Convention.SnakeCase false none false false false =
      run_paths ioOk [] [] treeLeaf
        none Convention.SnakeCase false none false false false) ∧
    finishRename ioRenameFail [] [] [] = .ok [] ∧
    (convert_single ioMkdirFail
        [([Component.normal (.utf8 "Some Dir")], true),
         ([Component.normal (.utf8 "Some Dir"), Component.normal (.utf8 "f.txt")], false),
         ([Component.normal (.utf8 "Other File.txt")], false)]
        [Component.normal (.utf8 "Some Dir"), Component.normal (.utf8 "f.txt")]
        none Convention.SnakeCase true none false false =
      .exited 4
        [([Component.normal (.utf8 "Some Dir")], true),
         ([Component.normal (.utf8 "Some Dir"), Component.normal (.utf8 "f.txt")], false),
         ([Component.normal (.utf8 "Other File.txt")], false)]) ∧
    convert_recursive ioOk []
        [[Component.normal (.nonUtf8 0)], [Component.normal (.utf8 "a.txt")]]
        none Convention.SnakeCase false false =
      .errR PathConvertError.InvalidUtf8Path [] := by
  refine ⟨?_, ?_, ?_, ?_⟩
  · exact (claim_C2_amended ioOk [] [Component.normal (.nonUtf8 0)] [] treeLeaf
      none Convention.SnakeCase false none false false).1
      PathConvertError.InvalidUtf8Path [] rfl
  · exact (claim_C2_amended ioRenameFail [] [] [] treeLeaf
      none Convention.SnakeCase false none false false).2.1 [] [] rfl
  · exact ((claim_C2_amended ioMkdirFail
      [([Component.normal (.utf8 "Some Dir")], true),
       ([Component.normal (.utf8 "Some Dir"), Component.normal (.utf8 "f.txt")], false),
       ([Component.normal (.utf8 "Other File.txt")], false)]
      [Component.normal (.utf8 "Some Dir"), Component.normal (.utf8 "f.txt")]
      [[Component.normal (.utf8 "Other File.txt")]] treeLeaf
      none Convention.SnakeCase true none false false).2.2.1
      [Component.normal (.utf8 "some_dir"), Component.normal (.utf8 "f.txt")]
      [Component.normal (.utf8 "some_dir")] rfl rfl rfl rfl rfl).1
  · exact (claim_C2_amended ioOk [] [Component.normal (.nonUtf8 0)] [] treeLeaf
      none Convention.SnakeCase false none false false).2.2.2
      PathConvertError.InvalidUtf8Path [] [[Component.normal (.utf8 "a.txt")]] rfl

theorem toNat_ofNat_valid {n : Nat} (h : n < 55296) : (Char.ofNat n).toNat = n := by
  have hv : n.isValidChar := Or.inl h
  simp only [Char.ofNat, hv, dif_pos, Char.ofNatAux, Char.toNat]
  simp [UInt32.toNat, UInt32.ofNatCore]

theorem isLowerA_nat {c : Char} (h : isLowerA c = true) :
    97 ≤ c.toNat ∧ c.toNat ≤ 122 := by
  simpa [isLowerA] using h

theorem toLowerC_eq_self {c : Char} (h : isLowerA c = true) : toLowerC c = c := by
  have hn := isLowerA_nat h
  unfold toLowerC
  rw [if_neg (by omega)]

theorem toNat_toUpperC {c : Char} (h : isLowerA c = true) :
    (toUpperC c).toNat = c.toNat - 32 := by
  have hn := isLowerA_nat h
  unfold toUpperC
  rw [if_pos (by omega)]
  exact toNat_ofNat_valid (by omega)

theorem toLowerC_toUpperC {c : Char} (h : isLowerA c = true) :
    toLowerC (toUpperC c) = c := by
  have hn := isLowerA_nat h
  have h1 := toNat_toUpperC h
  unfold toLowerC
  rw [if_pos (by omega), h1]
  have h2 : c.toNat - 32 + 32 = c.toNat := by omega
  rw [h2, Char.ofNat_toNat]

theorem toUpperC_toUpperC {c : Char} (h : isLowerA c = true) :
    toUpperC (toUpperC c) = toUpperC c := by
  have hn := isLowerA_nat h
  have h1 := toNat_toUpperC h
  have h2 : toUpperC (toUpperC c) =
      if 97 ≤ (toUpperC c).toNat ∧ (toUpperC c).toNat ≤ 122 then
        Char.ofNat ((toUpperC c).toNat - 32)
      else toUpperC c := rfl
  rw [h2, if_neg (by omega)]

theorem validWordB_parts {w : List Char} (h : validWordB w = true) :
    w ≠ [] ∧ ∀ c ∈ w, isLowerA c = true := by
  simp only [validWordB, Bool.and_eq_true, Bool.not_eq_true', List.isEmpty_eq_false,
    List.all_eq_true] at h
  exact ⟨h.1, h.2⟩

theorem validWordsB_parts {ws : List (List Char)} (h : validWordsB ws = true) :
    ws ≠ [] ∧ ∀ w ∈ ws, validWordB w = true := by
  simp only [validWordsB, Bool.and_eq_true, Bool.not_eq_true', List.isEmpty_eq_false,
    List.all_eq_true] at h
  exact ⟨h.1, h.2⟩

theorem map_toLowerC_id {l : List Char} (h : ∀ c ∈ l, isLowerA c = true) :
    l.map toLowerC = l := by
  have h2 : ∀ c ∈ l, toLowerC c = c := fun c hc => toLowerC_eq_self (h c hc)
  rw [List.map_congr_left h2]
  simp

theorem capitalizeW_cons {c : Char} {cs : List Char}
    (h : ∀ d ∈ cs, isLowerA d = true) :
    capitalizeW (c :: cs) = toUpperC c :: cs := by
  simp [capitalizeW, map_toLowerC_id h]

theorem capW_map_toLowerC {w : List Char} (h : validWordB w = true) :
    (capitalizeW w).map toLowerC = w := by
  obtain ⟨hne, hmem⟩ := validWordB_parts h
  cases w with
  | nil => exact absurd rfl hne
  | cons c cs =>
    have hcs : ∀ d ∈ cs, isLowerA d = true := fun d hd => hmem d (List.mem_cons_of_mem _ hd)
    rw [capitalizeW_cons hcs, List.map_cons,
      toLowerC_toUpperC (hmem c (List.mem_cons_self _ _)), map_toLowerC_id hcs]

theorem capW_map_toUpperC {w : List Char} (h : validWordB w = true) :
    (capitalizeW w).map toUpperC = w.map toUpperC := by
  obtain ⟨hne, hmem⟩ := validWordB_parts h
  cases w with
  | nil => rfl
  | cons c cs =>
    have hcs : ∀ d ∈ cs, isLowerA d = true := fun d hd => hmem d (List.mem_cons_of_mem _ hd)
    rw [capitalizeW_cons hcs, List.map_cons, List.map_cons,
      toUpperC_toUpperC (hmem c (List.mem_cons_self _ _))]

theorem capW_capW {w : List Char} (h : validWordB w = true) :
    capitalizeW (capitalizeW w) = capitalizeW w := by
  obtain ⟨hne, hmem⟩ := validWordB_parts h
  cases w with
  | nil => rfl
  | cons c cs =>
    have hcs : ∀ d ∈ cs, isLowerA d = true := fun d hd => hmem d (List.mem_cons_of_mem _ hd)
    rw [capitalizeW_cons hcs, capitalizeW_cons hcs,
      toUpperC_toUpperC (hmem c (List.mem_cons_self _ _))]

theorem mapU_map_toLowerC {w : List Char} (h : ∀ c ∈ w, isLowerA c = true) :
    (w.map toUpperC).map toLowerC = w := by
  rw [List.map_map]
  have h2 : ∀ c ∈ w, (toLowerC ∘ toUpperC) c = id c :=
    fun c hc => toLowerC_toUpperC (h c hc)
  rw [List.map_congr_left h2]
  simp

theorem mapU_mapU {w : List Char} (h : ∀ c ∈ w, isLowerA c = true) :
    (w.map toUpperC).map toUpperC = w.map toUpperC := by
  rw [List.map_map]
  have h2 : ∀ c ∈ w, (toUpperC ∘ toUpperC) c = toUpperC c :=
    fun c hc => toUpperC_toUpperC (h c hc)
  rw [List.map_congr_left h2]

theorem capW_mapU {w : List Char} (h : validWordB w = true) :
    capitalizeW (w.map toUpperC) = capitalizeW w := by
  obtain ⟨hne, hmem⟩ := validWordB_parts h
  cases w with
  | nil => rfl
  | cons c cs =>
    have hcs : ∀ d ∈ cs, isLowerA d = true := fun d hd => hmem d (List.mem_cons_of_mem _ hd)
    rw [List.map_cons, capitalizeW_cons hcs]
    show toUpperC (toUpperC c) :: (cs.map toUpperC).map toLowerC = toUpperC c :: cs
    rw [toUpperC_toUpperC (hmem c (List.mem_cons_self _ _)), mapU_map_toLowerC hcs]

theorem render_map_capW (f : Convention) {ws : List (List Char)}
    (h : validWordsB ws = true) :
    render f (ws.map capitalizeW) = render f ws := by
  obtain ⟨hne, hmem⟩ := validWordsB_parts h
  have hcc : ∀ w ∈ ws, (capitalizeW ∘ capitalizeW) w = capitalizeW w :=
    fun w hw => capW_capW (hmem w hw)
  have hcl : ∀ w ∈ ws, (List.map toLowerC ∘ capitalizeW) w = List.map toLowerC w := by
    intro w hw
    show (capitalizeW w).map toLowerC = w.map toLowerC
    rw [capW_map_toLowerC (hmem w hw), map_toLowerC_id (validWordB_parts (hmem w hw)).2]
  have hcu : ∀ w ∈ ws, (List.map toUpperC ∘ capitalizeW) w = List.map toUpperC w :=
    fun w hw => capW_map_toUpperC (hmem w hw)
  cases f
  · simp only [render, List.map_map]
    rw [List.map_congr_left hcc]
  · simp only [render, List.map_map]
    rw [List.map_congr_left hcl]
  · simp only [render, List.map_map]
    rw [List.map_congr_left hcu]
  · cases ws with
    | nil => rfl
    | cons w rest =>
      simp only [render, List.map_cons, List.map_map]
      have hcc2 : ∀ x ∈ rest, (capitalizeW ∘ capitalizeW) x = capitalizeW x :=
        fun x hx => capW_capW (hmem x (List.mem_cons_of_mem _ hx))
      rw [capW_map_toLowerC (hmem w (List.mem_cons_self _ _)),
        map_toLowerC_id (validWordB_parts (hmem w (List.mem_cons_self _ _))).2,
        List.map_congr_left hcc2]
  · simp only [render, List.map_map]
    rw [List.map_congr_left hcc]
  · simp only [render, List.map_map]
    rw [List.map_congr_left hcl]
  · simp only [render, List.map_map]
    rw [List.map_congr_left hcu]
  · simp only [render, List.map_map]
    rw [List.map_congr_left hcl]

theorem render_map_mapU (f : Convention) {ws : List (List Char)}
    (h : validWordsB ws = true) :
    render f (ws.map (List.map toUpperC)) = render f ws := by
  obtain ⟨hne, hmem⟩ := validWordsB_parts h
  have huc : ∀ w ∈ ws, (capitalizeW ∘ List.map toUpperC) w = capitalizeW w :=
    fun w hw => capW_mapU (hmem w hw)
  have hul : ∀ w ∈ ws, (List.map toLowerC ∘ List.map toUpperC) w = List.map toLowerC w := by
    intro w hw
    show (w.map toUpperC).map toLowerC = w.map toLowerC
    rw [mapU_map_toLowerC (validWordB_parts (hmem w hw)).2,
      map_toLowerC_id (validWordB_parts (hmem w hw)).2]
  have huu : ∀ w ∈ ws, (List.map toUpperC ∘ List.map toUpperC) w = List.map toUpperC w :=
    fun w hw => mapU_mapU (validWordB_parts (hmem w hw)).2
  cases f
  · simp only [render, List.map_map]
    rw [List.map_congr_left huc]
  · simp only [render, List.map_map]
    rw [List.map_congr_left hul]
  · simp only [render, List.map_map]
    rw [List.map_congr_left huu]
  · cases ws with
    | nil => rfl
    | cons w rest =>
      simp only [render, List.map_cons, List.map_map]
      have hw0 : ∀ c ∈ w, isLowerA c = true :=
        (validWordB_parts (hmem w (List.mem_cons_self _ _))).2
      have hw1 : ∀ c ∈ w, (toLowerC ∘ toUpperC) c = toLowerC c := by
        intro c hc
        show toLowerC (toUpperC c) = toLowerC c
        rw [toLowerC_toUpperC (hw0 c hc), toLowerC_eq_self (hw0 c hc)]
      have huc2 : ∀ x ∈ rest, (capitalizeW ∘ List.map toUpperC) x = capitalizeW x :=
        fun x hx => capW_mapU (hmem x (List.mem_cons_of_mem _ hx))
      rw [List.map_congr_left hw1, List.map_congr_left huc2]
  · simp only [render, List.map_map]
    rw [List.map_congr_left huc]
  · simp only [render, List.map_map]
    rw [List.map_congr_left hul]
  · simp only [render, List.map_map]
    rw [List.map_congr_left huu]
  · simp only [render, List.map_map]
    rw [List.map_congr_left hul]

theorem sep_not_mem_lower {w : List Char} (h : ∀ c ∈ w, isLowerA c = true)
    {sep : Char} (hsep : sep.toNat < 97) : sep ∉ w := by
  intro hm
  have hn := isLowerA_nat (h sep hm)
  omega

theorem underscore_not_mem_upper {w : List Char} (h : ∀ c ∈ w, isLowerA c = true) :
    ('_' : Char) ∉ w.map toUpperC := by
  intro hm
  rw [List.mem_map] at hm
  obtain ⟨c, hc, heq⟩ := hm
  have h1 := toNat_toUpperC (h c hc)
  have hn := isLowerA_nat (h c hc)
  rw [heq] at h1
  have h2 : ('_' : Char).toNat = 95 := rfl
  omega

theorem space_not_mem_capW {w : List Char} (h : validWordB w = true) :
    (' ' : Char) ∉ capitalizeW w := by
  obtain ⟨hne, hmem⟩ := validWordB_parts h
  cases w with
  | nil => exact absurd rfl hne
  | cons c cs =>
    have hcs : ∀ d ∈ cs, isLowerA d = true := fun d hd => hmem d (List.mem_cons_of_mem _ hd)
    rw [capitalizeW_cons hcs]
    intro hm
    rcases List.mem_cons.mp hm with heq | hmem2
    · have h1 := toNat_toUpperC (hmem c (List.mem_cons_self _ _))
      have hn := isLowerA_nat (hmem c (List.mem_cons_self _ _))
      rw [← heq] at h1
      have h2 : (' ' : Char).toNat = 32 := rfl
      omega
    · have hn := isLowerA_nat (hcs _ hmem2)
      have h2 : (' ' : Char).toNat = 32 := rfl
      omega

theorem capW_ne_nil {w : List Char} (h : validWordB w = true) : capitalizeW w ≠ [] := by
  obtain ⟨hne, hmem⟩ := validWordB_parts h
  cases w with
  | nil => exact absurd rfl hne
  | cons c cs => simp [capitalizeW]

theorem map_toLowerC_ws_id {ws : List (List Char)} (h : validWordsB ws = true) :
    ws.map (List.map toLowerC) = ws := by
  obtain ⟨hne, hmem⟩ := validWordsB_parts h
  have h2 : ∀ w ∈ ws, List.map toLowerC w = id w :=
    fun w hw => map_toLowerC_id (validWordB_parts (hmem w hw)).2
  rw [List.map_congr_left h2]
  simp

theorem parse_render_snake {ws : List (List Char)} (h : validWordsB ws = true) :
    parseIn Convention.SnakeCase (render Convention.SnakeCase ws) = ws := by
  obtain ⟨hne, hmem⟩ := validWordsB_parts h
  have hx : ∀ l ∈ ws, ('_' : Char) ∉ l :=
    fun l hl => sep_not_mem_lower (validWordB_parts (hmem l hl)).2 (by decide)
  simp only [render, parseIn, map_toLowerC_ws_id h]
  rw [List.splitOn_intercalate ws '_' hx hne]
  exact List.filter_eq_self.mpr
    (fun w hw => by simpa using (validWordB_parts (hmem w hw)).1)

theorem parse_render_kebab {ws : List (List Char)} (h : validWordsB ws = true) :
    parseIn Convention.KebabCase (render Convention.KebabCase ws) = ws := by
  obtain ⟨hne, hmem⟩ := validWordsB_parts h
  have hx : ∀ l ∈ ws, ('-' : Char) ∉ l :=
    fun l hl => sep_not_mem_lower (validWordB_parts (hmem l hl)).2 (by decide)
  simp only [render, parseIn, map_toLowerC_ws_id h]
  rw [List.splitOn_intercalate ws '-' hx hne]
  exact List.filter_eq_self.mpr
    (fun w hw => by simpa using (validWordB_parts (hmem w hw)).1)

theorem parse_render_usnake {ws : List (List Char)} (h : validWordsB ws = true) :
    parseIn Convention.UpperSnakeCase (render Convention.UpperSnakeCase ws) =
      ws.map (List.map toUpperC) := by
  obtain ⟨hne, hmem⟩ := validWordsB_parts h
  have hne2 : ws.map (List.map toUpperC) ≠ [] := by simpa using hne
  have hx : ∀ l ∈ ws.map (List.map toUpperC), ('_' : Char) ∉ l := by
    intro l hl
    rw [List.mem_map] at hl
    obtain ⟨w, hw, rfl⟩ := hl
    exact underscore_not_mem_upper (validWordB_parts (hmem w hw)).2
  simp only [render, parseIn]
  rw [List.splitOn_intercalate (ws.map (List.map toUpperC)) '_' hx hne2]
  refine List.filter_eq_self.mpr ?_
  intro l hl
  rw [List.mem_map] at hl
  obtain ⟨w, hw, rfl⟩ := hl
  simpa using (validWordB_parts (hmem w hw)).1

theorem parse_render_title {ws : List (List Char)} (h : validWordsB ws = true) :
    parseIn Convention.TitleCase (render Convention.TitleCase ws) =
      ws.map capitalizeW := by
  obtain ⟨hne, hmem⟩ := validWordsB_parts h
  have hne2 : ws.map capitalizeW ≠ [] := by simpa using hne
  have hx : ∀ l ∈ ws.map capitalizeW, (' ' : Char) ∉ l := by
    intro l hl
    rw [List.mem_map] at hl
    obtain ⟨w, hw, rfl⟩ := hl
    exact space_not_mem_capW (hmem w hw)
  simp only [render, parseIn]
  rw [List.splitOn_intercalate (ws.map capitalizeW) ' ' hx hne2]
  refine List.filter_eq_self.mpr ?_
  intro l hl
  rw [List.mem_map] at hl
  obtain ⟨w, hw, rfl⟩ := hl
  simpa using capW_ne_nil (hmem w hw)

/-- C6 counterexample: with explicit source convention snake, the round trip
fails for the flat target (word boundaries are destroyed) and for the camel
target with adjacent single-letter words — even though the original stems'
boundaries are fully expressible in the source convention (first and third
conjuncts). -/
theorem claim_C6_counterexample :
    parseIn Convention.SnakeCase (render Convention.SnakeCase
      [['s','o','m','e'], ['f','i','l','e']]) = [['s','o','m','e'], ['f','i','l','e']] ∧
    convertCaseL (convertCaseL (render Convention.SnakeCase
      [['s','o','m','e'], ['f','i','l','e']]) (some Convention.SnakeCase)
      Convention.FlatCase) (some Convention.FlatCase) Convention.SnakeCase ≠
      render Convention.SnakeCase [['s','o','m','e'], ['f','i','l','e']] ∧
    parseIn Convention.SnakeCase (render Convention.SnakeCase
      [['a'], ['b'], ['c']]) = [['a'], ['b'], ['c']] ∧
    convertCaseL (convertCaseL (render Convention.SnakeCase
      [['a'], ['b'], ['c']]) (some Convention.SnakeCase)
      Convention.CamelCase) (some Convention.CamelCase) Convention.SnakeCase ≠
      render Convention.SnakeCase [['a'], ['b'], ['c']] := by
  exact ⟨by decide, by decide, by decide, by decide⟩

/-- C6 (amended): for every source convention `f` whose rendering of the word
sequence parses back to it (boundaries expressible in `f`), and every
separator-based target convention (title, snake, SNAKE, kebab), converting
with explicit conventions there and back reconstructs the original stem. -/
theorem claim_C6_amended (f t : Convention) (ws : List (List Char))
    (hws : validWordsB ws = true)
    (hf : parseIn f (render f ws) = ws)
    (ht : t = Convention.TitleCase ∨ t = Convention.SnakeCase ∨
          t = Convention.UpperSnakeCase ∨ t = Convention.KebabCase) :
    convertCaseL (convertCaseL (render f ws) (some f) t) (some t) f =
      render f ws := by
  have step1 : convertCaseL (render f ws) (some f) t = render t ws := by
    simp [convertCaseL, hf]
  rw [step1]
  simp only [convertCaseL]
  rcases ht with rfl | rfl | rfl | rfl
  · rw [parse_render_title hws]
    exact render_map_capW f hws
  · rw [parse_render_snake hws]
  · rw [parse_render_usnake hws]
    exact render_map_mapU f hws
  · rw [parse_render_kebab hws]

/-- Witness for C6 (amended): snake to kebab and back on `some_file`. -/
theorem claim_C6_witness :
    convertCaseL (convertCaseL (render Convention.SnakeCase
      [['s','o','m','e'], ['f','i','l','e']]) (some Convention.SnakeCase)
      Convention.KebabCase) (some Convention.KebabCase) Convention.SnakeCase =
      render Convention.SnakeCase [['s','o','m','e'], ['f','i','l','e']] :=
  claim_C6_amended Convention.SnakeCase Convention.KebabCase
    [['s','o','m','e'], ['f','i','l','e']] (by decide) (by decide)
    (Or.inr (Or.inr (Or.inr rfl)))

mutual

theorem mem_walkBU (p : PathT) (t : FsTree) : ∀ x ∈ walkBU p t, p <+: x := by
  cases t with
  | file n =>
    intro x hx
    simp only [walkBU, List.mem_singleton] at hx
    subst hx
    exact List.prefix_refl _
  | dir n cs =>
    intro x hx
    simp only [walkBU] at hx
    rcases List.mem_append.mp hx with h | h
    · obtain ⟨m, _, hpre⟩ := mem_walkForest p cs x h
      exact (List.prefix_append p [Component.normal m]).trans hpre
    · simp only [List.mem_singleton] at h
      subst h
      exact List.prefix_refl _

theorem mem_walkForest (p : PathT) (f : Forest) :
    ∀ x ∈ walkForest p f,
      ∃ n, n ∈ namesF f ∧ (p ++ [Component.normal n]) <+: x := by
  cases f with
  | nil =>
    intro x hx
    simp [walkForest] at hx
  | cons hd tl =>
    intro x hx
    simp only [walkForest] at hx
    rcases List.mem_append.mp hx with h | h
    · exact ⟨hd.name, by simp [namesF],
        mem_walkBU (p ++ [Component.normal hd.name]) hd x h⟩
    · obtain ⟨m, hm, hpre⟩ := mem_walkForest p tl x h
      exact ⟨m, by simp [namesF, hm], hpre⟩

end

mutual

theorem pw_walkBU (p : PathT) (t : FsTree) (h : wfT t = true) :
    List.Pairwise (fun a b => ¬(a <+: b ∧ a ≠ b)) (walkBU p t) := by
  cases t with
  | file n => simp [walkBU]
  | dir n cs =>
    simp only [wfT, Bool.and_eq_true] at h
    simp only [walkBU]
    rw [List.pairwise_append]
    refine ⟨pw_walkForest p cs h.2 h.1, by simp, ?_⟩
    intro a ha b hb
    simp only [List.mem_singleton] at hb
    rw [hb]
    obtain ⟨m, _, hpre⟩ := mem_walkForest p cs a ha
    intro hab
    have h1 := List.IsPrefix.length_le hab.1
    have h2 := List.IsPrefix.length_le hpre
    simp at h2
    omega

theorem pw_walkForest (p : PathT) (f : Forest) (hw : wfF f = true)
    (hn : nodupB (namesF f) = true) :
    List.Pairwise (fun a b => ¬(a <+: b ∧ a ≠ b)) (walkForest p f) := by
  cases f with
  | nil => simp [walkForest]
  | cons hd tl =>
    simp only [wfF, Bool.and_eq_true] at hw
    simp only [namesF, nodupB, Bool.and_eq_true, Bool.not_eq_true'] at hn
    simp only [walkForest]
    rw [List.pairwise_append]
    refine ⟨pw_walkBU _ hd hw.1, pw_walkForest p tl hw.2 hn.2, ?_⟩
    intro a ha b hb
    have hpa : (p ++ [Component.normal hd.name]) <+: a :=
      mem_walkBU (p ++ [Component.normal hd.name]) hd a ha
    obtain ⟨m, hm, hpb⟩ := mem_walkForest p tl b hb
    intro hab
    have hpa2 : (p ++ [Component.normal hd.name]) <+: b := hpa.trans hab.1
    have heq : (p ++ [Component.normal hd.name]) = (p ++ [Component.normal m]) := by
      rcases List.prefix_or_prefix_of_prefix hpa2 hpb with h | h
      · exact h.eq_of_length (by simp)
      · exact (h.eq_of_length (by simp)).symm
    have hname : hd.name = m := by simpa using heq
    have hmem2 : hd.name ∈ namesF tl := hname ▸ hm
    have hnot : hd.name ∉ namesF tl := by simpa using hn.1
    exact hnot hmem2

end

/-- C1: the bottom-up enumeration used by the recursive rename includes the
root (as the last entry processed) and is contents-first: whenever entry `a`
is processed before entry `b`, `a` is not a strict ancestor of `b` — so every
descendant of a directory is processed before the directory itself. -/
theorem claim_C1 (root : PathT) (t : FsTree) (h : wfT t = true) :
    (walkBU root t).getLast? = some root ∧
    List.Pairwise (fun a b => ¬(a <+: b ∧ a ≠ b)) (walkBU root t) := by
  constructor
  · cases t with
    | file n => rfl
    | dir n cs => simp [walkBU, List.getLast?_concat]
  · exact pw_walkBU root t h

/-- Witness for C1 on a concrete two-level tree. -/
theorem claim_C1_witness :
    (walkBU [Component.normal (.utf8 "A")] demoTree).getLast? =
      some [Component.normal (.utf8 "A")] ∧
    List.Pairwise (fun a b => ¬(a <+: b ∧ a ≠ b))
      (walkBU [Component.normal (.utf8 "A")] demoTree) :=
  claim_C1 [Component.normal (.utf8 "A")] demoTree (by decide)
